import Mathlib

/-! The filter search box of auspice (`src/components/controls/filter.js`)

A shallow embedding of the `FilterData` component: the option list computed by
`makeOptions`, the badge summary computed by `summariseFilters`, the actions the
callbacks dispatch, and the part of `render` that announces the number of badges.

JavaScript values are modelled as follows.

* A string is the list of its UTF-16 code units; `Array.prototype.sort()` without a comparator
  orders strings lexicographically by code unit, which is the lexicographic order on such lists.
* A property key of the filters object is a string or the symbol `strainSymbol`
  (the only symbol this module imports).
* An object is the list of its own properties with pairwise distinct keys; a `Map` is the list
  of its entries, in insertion order, with pairwise distinct keys.
* Reading a property of `undefined` raises a `TypeError`; functions that can do so return `Except`.
-/

set_option autoImplicit false

deriving instance DecidableEq for Except

namespace FilterData

/-- A JavaScript string, as the sequence of its UTF-16 code units. -/
abbrev JSString := List Nat

/-- The code units of a string literal of the source (characters outside the basic plane
become a surrogate pair). -/
def utf16 (s : String) : JSString :=
  s.data.flatMap fun c =>
    if c.toNat < 0x10000 then [c.toNat]
    else [0xD800 + (c.toNat - 0x10000) / 0x400, 0xDC00 + (c.toNat - 0x10000) % 0x400]

/-- The decimal rendering of a non-negative integer, as produced by string interpolation of
an array length. -/
def numberToString (n : Nat) : JSString :=
  (Nat.toDigits 10 n).map Char.toNat

/-- A property key of the filters object: a string, or the symbol `strainSymbol` imported from
`util/globals`. -/
inductive FilterName where
  | str (s : JSString)
  | strainSymbol
  deriving DecidableEq

/-- The faults the component can raise. -/
inductive JSError where
  | typeError
  deriving DecidableEq

/-- One element of a filter's array: `{value, active}`. -/
structure FilterEntry where
  value : JSString
  active : Bool
  deriving DecidableEq

/-- A plain object: its own properties in own-key enumeration order, keys pairwise distinct. -/
structure JSObject (V : Type) where
  props : List (FilterName × V)
  nodup : (props.map Prod.fst).Nodup

/-- A `Map` from values to counts: its entries in insertion order, keys pairwise distinct. -/
structure JSMap where
  entries : List (JSString × Nat)
  nodup : (entries.map Prod.fst).Nodup

/-- A tree node, with the two fields the component reads. -/
structure TreeNode where
  name : JSString
  hasChildren : Bool
  deriving DecidableEq

/-- An element of the array handed to `<Select>`: `{label, value: [filterName, itemName]}`. -/
structure SelectOption where
  label : JSString
  value : FilterName × JSString
  deriving DecidableEq

/-- The action object built by `applyFilter(mode, trait, values)`; the action creator lives in
`actions/tree` and is kept as the record of its arguments. -/
structure FilterAction where
  mode : JSString
  trait : FilterName
  values : List JSString
  deriving DecidableEq

/-- An element of the array returned by `summariseFilters`; `remove` is the list of actions the
callback dispatches when it is run. -/
structure FilterSummary where
  filterName : FilterName
  displayName : JSString
  remove : List FilterAction
  deriving DecidableEq

namespace JSObject

variable {V : Type}

/-- The own keys of an object, in enumeration order. -/
def keyList (o : JSObject V) : List FilterName :=
  o.props.map Prod.fst

/-- The own string keys, `Object.keys(o)`. -/
def keys (o : JSObject V) : List JSString :=
  o.props.filterMap fun p =>
    match p.1 with
    | .str s => some s
    | .strainSymbol => none

/-- The own string keys, then the own symbol keys: `Reflect.ownKeys(o)`. -/
def ownKeys (o : JSObject V) : List FilterName :=
  (o.keyList.filter fun k => k matches .str _) ++ (o.keyList.filter fun k => k matches .strainSymbol)

/-- The value of the property `o[k]`, `none` standing for `undefined`. -/
def get (o : JSObject V) (k : FilterName) : Option V :=
  o.props.lookup k

/-- The test `k in o`. -/
def has (o : JSObject V) (k : FilterName) : Bool :=
  o.keyList.contains k

end JSObject

/-- The keys of a `Map` in insertion order, `Array.from(m.keys())`. -/
def JSMap.keys (m : JSMap) : List JSString :=
  m.entries.map Prod.fst

/-- The default sort `xs.sort()` on an array of strings: ascending by code units. -/
def sort (xs : List JSString) : List JSString :=
  xs.insertionSort (· ≤ ·)

/-- The separator of the template literal of an option label. -/
def arrow : JSString := utf16 " → "

/-- The options pushed for one filter once its array and its count table have been read
(lines 46-56). -/
def pushedOptions (isValueValid : JSString → Bool) (filterName : JSString)
    (entries : List FilterEntry) (table : JSMap) : List SelectOption :=
  let filterValuesCurrentlyActive := (entries.filter fun x => x.active).map fun x => x.value
  (sort ((table.keys.filter fun itemName => isValueValid itemName).filter
      fun itemName => !filterValuesCurrentlyActive.contains itemName)).map
    fun itemName =>
      { label := filterName ++ arrow ++ itemName, value := (FilterName.str filterName, itemName) }

/-- The callback of the outer `forEach` of `makeOptions` for one `filterName`: the options it
pushes, or the fault raised when `activeFilters[filterName]` or
`totalStateCounts[filterName]` is `undefined`. -/
def filterOptions (isValueValid : JSString → Bool) (activeFilters : JSObject (List FilterEntry))
    (totalStateCounts : JSObject JSMap) (filterName : JSString) :
    Except JSError (List SelectOption) :=
  match activeFilters.get (.str filterName) with
  | none => .error .typeError
  | some entries =>
    match totalStateCounts.get (.str filterName) with
    | none => .error .typeError
    | some table => .ok (pushedOptions isValueValid filterName entries table)

/-- The outer `forEach` of `makeOptions`, threading the `options` array. -/
def forEachFilter (isValueValid : JSString → Bool) (activeFilters : JSObject (List FilterEntry))
    (totalStateCounts : JSObject JSMap) :
    List JSString → List SelectOption → Except JSError (List SelectOption)
  | [], options => .ok options
  | filterName :: rest, options =>
    match filterOptions isValueValid activeFilters totalStateCounts filterName with
    | .error e => .error e
    | .ok pushed =>
      forEachFilter isValueValid activeFilters totalStateCounts rest (options ++ pushed)

/-- The options pushed for the leaves of the tree (lines 59-66). -/
def strainOptions (nodes : List TreeNode) : List SelectOption :=
  (nodes.filter fun n => !n.hasChildren).map fun n =>
    { label := utf16 "sample" ++ arrow ++ n.name, value := (FilterName.strainSymbol, n.name) }

/-- The method `makeOptions`: the array of options of the `<Select>`, or the fault it raises. -/
def makeOptions (isValueValid : JSString → Bool) (activeFilters : JSObject (List FilterEntry))
    (totalStateCounts : JSObject JSMap) (nodes : List TreeNode) :
    Except JSError (List SelectOption) :=
  match forEachFilter isValueValid activeFilters totalStateCounts activeFilters.keys [] with
  | .error e => .error e
  | .ok options =>
    if activeFilters.has .strainSymbol then .ok (options ++ strainOptions nodes)
    else .ok options

/-- The method `selectionMade`: the action dispatched when an option is chosen. -/
def selectionMade (sel : SelectOption) : List FilterAction :=
  [{ mode := utf16 "add", trait := sel.value.1, values := [sel.value.2] }]

/-- The `displayName` of a badge (line 80). -/
def displayName (filterName : FilterName) (n : Nat) : JSString :=
  (match filterName with
    | .strainSymbol => utf16 "samples"
    | .str s => s) ++ utf16 " (n=" ++ numberToString n ++ utf16 ")"

/-- The summary built for one retained key by the `map` of `summariseFilters`. -/
def summarise (activeFilters : JSObject (List FilterEntry)) (filterName : FilterName) :
    Except JSError FilterSummary :=
  match activeFilters.get filterName with
  | none => .error .typeError
  | some entries =>
    let n := (entries.filter fun f => f.active).length
    .ok { filterName := filterName
          displayName := displayName filterName n
          remove := [{ mode := utf16 "set", trait := filterName, values := [] }] }

/-- The `filter` of `summariseFilters` (line 75): the keys whose array is non-empty. -/
def filterNames (activeFilters : JSObject (List FilterEntry)) :
    List FilterName → Except JSError (List FilterName)
  | [] => .ok []
  | filterName :: rest =>
    match activeFilters.get filterName with
    | none => .error .typeError
    | some entries =>
      match filterNames activeFilters rest with
      | .error e => .error e
      | .ok kept => .ok (if entries.length > 0 then filterName :: kept else kept)

/-- The `map` of `summariseFilters` (lines 76-83). -/
def mapSummarise (activeFilters : JSObject (List FilterEntry)) :
    List FilterName → Except JSError (List FilterSummary)
  | [] => .ok []
  | filterName :: rest =>
    match summarise activeFilters filterName with
    | .error e => .error e
    | .ok s =>
      match mapSummarise activeFilters rest with
      | .error e => .error e
      | .ok ss => .ok (s :: ss)

/-- The method `summariseFilters`: one summary per own key whose array is non-empty. -/
def summariseFilters (activeFilters : JSObject (List FilterEntry)) :
    Except JSError (List FilterSummary) :=
  match filterNames activeFilters activeFilters.ownKeys with
  | .error e => .error e
  | .ok names => mapSummarise activeFilters names

/-- The text of the subtitle rendered above the badges (line 105). -/
def subtitleText (n : Nat) : JSString :=
  numberToString n ++ utf16 " type" ++ (if n = 1 then [] else utf16 "s") ++
    utf16 " of filter" ++ (if n = 1 then [] else utf16 "s") ++ utf16 " currently active:"

/-- The subtitle of `render`: present when there is at least one badge. -/
def renderSubtitle (inUseFilters : List FilterSummary) : Option JSString :=
  if inUseFilters.length ≠ 0 then some (subtitleText inUseFilters.length) else none

/-- What `render` hands to its children: the options of the `<Select>`, the subtitle, and the
badges (their text and `remove` callback). -/
structure Rendered where
  options : List SelectOption
  subtitle : Option JSString
  badges : List (JSString × List FilterAction)
  deriving DecidableEq

/-- The method `render`: badges are summarised first, then the options are computed. -/
def render (isValueValid : JSString → Bool) (activeFilters : JSObject (List FilterEntry))
    (totalStateCounts : JSObject JSMap) (nodes : List TreeNode) : Except JSError Rendered :=
  match summariseFilters activeFilters with
  | .error e => .error e
  | .ok inUseFilters =>
    match makeOptions isValueValid activeFilters totalStateCounts nodes with
    | .error e => .error e
    | .ok options =>
      .ok { options := options
            subtitle := renderSubtitle inUseFilters
            badges := if inUseFilters.length ≠ 0
              then inUseFilters.map fun filter => (filter.displayName, filter.remove)
              else [] }

/-- Modelled from the spec: the store mutation requested by `applyFilter("set", category, [])`
(the reducer is not part of this file); `clearCategory(category)` replaces the category's
sequence with the empty sequence and leaves every other category untouched. -/
def clearCategory (activeFilters : JSObject (List FilterEntry)) (category : FilterName) :
    JSObject (List FilterEntry) where
  props := activeFilters.props.map fun p => if p.1 = category then (p.1, []) else p
  nodup := by
    have h : (activeFilters.props.map fun p => if p.1 = category then (p.1, []) else p).map
        Prod.fst = activeFilters.props.map Prod.fst := by
      rw [List.map_map]
      apply List.map_congr_left
      intro p _
      by_cases hp : p.1 = category <;> simp [hp]
    rw [h]
    exact activeFilters.nodup

/-! ## Vocabulary of the statements -/

/-- The options contributed by the string key `s`: what its callback pushes, nothing if the
callback faults. -/
def block (isValueValid : JSString → Bool) (activeFilters : JSObject (List FilterEntry))
    (totalStateCounts : JSObject JSMap) (s : JSString) : List SelectOption :=
  match filterOptions isValueValid activeFilters totalStateCounts s with
  | .ok pushed => pushed
  | .error _ => []

/-- The values a filter offers: the keys of its table that are valid and not active. -/
def candidates (isValueValid : JSString → Bool) (entries : List FilterEntry) (table : JSMap) :
    List JSString :=
  (table.keys.filter fun itemName => isValueValid itemName).filter fun itemName =>
    !((entries.filter fun x => x.active).map fun x => x.value).contains itemName

/-- The pair `(c, v)` is offered: `c` is a string key of `activeFilters`, `v` is a key of
`totalStateCounts[c]`, `v` is valid, and no active entry of `activeFilters[c]` has value `v`. -/
def Offered (isValueValid : JSString → Bool) (af : JSObject (List FilterEntry))
    (tsc : JSObject JSMap) (c v : JSString) : Prop :=
  ∃ entries table, af.get (.str c) = some entries ∧ tsc.get (.str c) = some table ∧
    v ∈ table.keys ∧ isValueValid v = true ∧ ∀ e ∈ entries, e.active = true → e.value ≠ v

/-- The array stored under a key (empty when the key is absent). -/
def entriesOf (af : JSObject (List FilterEntry)) (k : FilterName) : List FilterEntry :=
  (af.get k).getD []

/-- The summary of a key, as a function of the array stored under it. -/
def summaryOf (af : JSObject (List FilterEntry)) (k : FilterName) : FilterSummary :=
  { filterName := k
    displayName := displayName k ((entriesOf af k).filter fun f => f.active).length
    remove := [{ mode := utf16 "set", trait := k, values := [] }] }

/-! ## Concrete inputs -/

/-- The validity predicate that accepts every value. -/
def allValid : JSString → Bool := fun _ => true

/-- The filters object `{}`. -/
def noFilters : JSObject (List FilterEntry) := ⟨[], by decide⟩

/-- The filters object `{country: []}`. -/
def countryIdle : JSObject (List FilterEntry) := ⟨[(.str (utf16 "country"), [])], by decide⟩

/-- The filters object `{country: [{value: "A", active: true}]}`. -/
def countryA : JSObject (List FilterEntry) :=
  ⟨[(.str (utf16 "country"), [⟨utf16 "A", true⟩])], by decide⟩

/-- The count tables `{country: Map {"A" => 3, "B" => 2}}`. -/
def countryCounts : JSObject JSMap :=
  ⟨[(.str (utf16 "country"), ⟨[(utf16 "A", 3), (utf16 "B", 2)], by decide⟩)], by decide⟩

/-- The count tables `{}`. -/
def noCounts : JSObject JSMap := ⟨[], by decide⟩

/-- The filters object `{[strainSymbol]: [{value: "s1", active: true}]}`. -/
def strainActive : JSObject (List FilterEntry) :=
  ⟨[(.strainSymbol, [⟨utf16 "s1", true⟩])], by decide⟩

/-- A tree with the single leaf `s1`. -/
def oneLeaf : List TreeNode := [⟨utf16 "s1", false⟩]

/-- The filters object `{country: [{value: "A", active: true}], region: []}`. -/
def countryRegion : JSObject (List FilterEntry) :=
  ⟨[(.str (utf16 "country"), [⟨utf16 "A", true⟩]), (.str (utf16 "region"), [])], by decide⟩

/-- The filters object `{country: [{value: "A", active: false}]}`. -/
def countryInactive : JSObject (List FilterEntry) :=
  ⟨[(.str (utf16 "country"), [⟨utf16 "A", false⟩])], by decide⟩

/-- The filters object `{sample: [], [strainSymbol]: []}`. -/
def sampleAndStrain : JSObject (List FilterEntry) :=
  ⟨[(.str (utf16 "sample"), []), (.strainSymbol, [])], by decide⟩

/-- The count tables `{sample: Map {"s1" => 1}}`. -/
def sampleCounts : JSObject JSMap :=
  ⟨[(.str (utf16 "sample"), ⟨[(utf16 "s1", 1)], by decide⟩)], by decide⟩

/-- A validity predicate that rejects the value `?`. -/
def demoValid : JSString → Bool := fun v => v != utf16 "?"

/-- The count table `Map {"C" => 1, "?" => 5, "B" => 2, "A" => 3}`. -/
def demoCountryTable : JSMap :=
  ⟨[(utf16 "C", 1), (utf16 "?", 5), (utf16 "B", 2), (utf16 "A", 3)], by decide⟩

/-- The filters object `{country: [{value: "A", active: true}, {value: "C", active: false}],
region: [], [strainSymbol]: [{value: "s1", active: true}]}`. -/
def demoFilters : JSObject (List FilterEntry) :=
  ⟨[(.str (utf16 "country"), [⟨utf16 "A", true⟩, ⟨utf16 "C", false⟩]),
    (.str (utf16 "region"), []),
    (.strainSymbol, [⟨utf16 "s1", true⟩])], by decide⟩

/-- The count tables `{country: demoCountryTable, region: Map {"X" => 4}}`. -/
def demoCounts : JSObject JSMap :=
  ⟨[(.str (utf16 "country"), demoCountryTable),
    (.str (utf16 "region"), ⟨[(utf16 "X", 4)], by decide⟩)], by decide⟩

/-- A tree with the internal node `root` and the leaves `s1` and `s2`. -/
def demoNodes : List TreeNode :=
  [⟨utf16 "root", true⟩, ⟨utf16 "s1", false⟩, ⟨utf16 "s2", false⟩]

/-- The options `makeOptions` returns on the demo inputs. -/
def demoOptions : List SelectOption :=
  [⟨utf16 "country → B", (.str (utf16 "country"), utf16 "B")⟩,
   ⟨utf16 "country → C", (.str (utf16 "country"), utf16 "C")⟩,
   ⟨utf16 "region → X", (.str (utf16 "region"), utf16 "X")⟩,
   ⟨utf16 "sample → s1", (.strainSymbol, utf16 "s1")⟩,
   ⟨utf16 "sample → s2", (.strainSymbol, utf16 "s2")⟩]

/-! ## Objects and maps -/

theorem lookup_eq_some_of_nodup {V : Type} (l : List (FilterName × V))
    (h : (l.map Prod.fst).Nodup) (k : FilterName) (v : V) :
    l.lookup k = some v ↔ (k, v) ∈ l := by
  induction l with
  | nil => simp
  | cons p l ih =>
    obtain ⟨k', v'⟩ := p
    simp only [List.map_cons, List.nodup_cons, List.mem_map, not_exists, not_and] at h
    by_cases hk : k = k'
    · subst hk
      simp only [List.lookup_cons, beq_self_eq_true, Option.some.injEq, List.mem_cons,
        Prod.mk.injEq, true_and]
      constructor
      · intro e; exact Or.inl e.symm
      · rintro (e | e)
        · exact e.symm
        · exact absurd rfl (h.1 (k, v) e)
    · have hb : (k == k') = false := by simpa using hk
      simp only [List.lookup_cons, hb, List.mem_cons, Prod.mk.injEq, hk, false_and, false_or]
      exact ih h.2

theorem JSObject.get_eq_some_iff {V : Type} (o : JSObject V) (k : FilterName) (v : V) :
    o.get k = some v ↔ (k, v) ∈ o.props :=
  lookup_eq_some_of_nodup o.props o.nodup k v

theorem JSObject.mem_keys {V : Type} (o : JSObject V) (s : JSString) :
    s ∈ o.keys ↔ FilterName.str s ∈ o.keyList := by
  unfold JSObject.keys JSObject.keyList
  simp only [List.mem_filterMap, List.mem_map]
  constructor
  · rintro ⟨p, hp, h⟩
    refine ⟨p, hp, ?_⟩
    cases hk : p.1 with
    | str t => rw [hk] at h; simp at h; rw [h]
    | strainSymbol => rw [hk] at h; simp at h
  · rintro ⟨p, hp, h⟩
    exact ⟨p, hp, by rw [h]⟩

theorem JSObject.has_iff {V : Type} (o : JSObject V) (k : FilterName) :
    o.has k = true ↔ k ∈ o.keyList := by
  simp [JSObject.has]

theorem JSObject.get_of_mem {V : Type} (o : JSObject V) (k : FilterName)
    (h : k ∈ o.keyList) : ∃ v, o.get k = some v := by
  unfold JSObject.keyList at h
  obtain ⟨p, hp, rfl⟩ := List.mem_map.1 h
  exact ⟨p.2, (o.get_eq_some_iff p.1 p.2).2 hp⟩

theorem JSObject.mem_of_get {V : Type} (o : JSObject V) (k : FilterName) (v : V)
    (h : o.get k = some v) : k ∈ o.keyList :=
  List.mem_map.2 ⟨(k, v), (o.get_eq_some_iff k v).1 h, rfl⟩

theorem JSObject.keys_nodup {V : Type} (o : JSObject V) : o.keys.Nodup := by
  have h : o.keys.map FilterName.str = o.keyList.filter fun k => k matches .str _ := by
    unfold JSObject.keys JSObject.keyList
    induction o.props with
    | nil => rfl
    | cons p l ih =>
      obtain ⟨k, v⟩ := p
      cases k with
      | str s => simp [List.filterMap_cons, List.filter_cons, ih]
      | strainSymbol => simp [List.filterMap_cons, List.filter_cons, ih]
  have h2 : (o.keys.map FilterName.str).Nodup := by
    rw [h]; exact o.nodup.filter _
  exact h2.of_map

/-! ## The option list, category by category -/

theorem filterOptions_error (isValueValid : JSString → Bool)
    (af : JSObject (List FilterEntry)) (tsc : JSObject JSMap) (s : JSString) (e : JSError)
    (h : filterOptions isValueValid af tsc s = .error e) :
    e = .typeError ∧ (af.get (.str s) = none ∨ tsc.get (.str s) = none) := by
  unfold filterOptions at h
  cases ha : af.get (.str s) with
  | none => cases e; exact ⟨rfl, Or.inl rfl⟩
  | some entries =>
    rw [ha] at h
    cases ht : tsc.get (.str s) with
    | none => cases e; exact ⟨rfl, Or.inr rfl⟩
    | some table => rw [ht] at h; simp at h

theorem filterOptions_ok (isValueValid : JSString → Bool)
    (af : JSObject (List FilterEntry)) (tsc : JSObject JSMap) (s : JSString)
    (entries : List FilterEntry) (table : JSMap)
    (ha : af.get (.str s) = some entries) (ht : tsc.get (.str s) = some table) :
    filterOptions isValueValid af tsc s = .ok (pushedOptions isValueValid s entries table) := by
  simp [filterOptions, ha, ht]

theorem block_eq (isValueValid : JSString → Bool)
    (af : JSObject (List FilterEntry)) (tsc : JSObject JSMap) (s : JSString)
    (entries : List FilterEntry) (table : JSMap)
    (ha : af.get (.str s) = some entries) (ht : tsc.get (.str s) = some table) :
    block isValueValid af tsc s = pushedOptions isValueValid s entries table := by
  simp [block, filterOptions_ok isValueValid af tsc s entries table ha ht]

theorem forEachFilter_ok (isValueValid : JSString → Bool)
    (af : JSObject (List FilterEntry)) (tsc : JSObject JSMap) (ks : List JSString) :
    ∀ options : List SelectOption,
      (∀ s ∈ ks, ∃ pushed, filterOptions isValueValid af tsc s = .ok pushed) →
      forEachFilter isValueValid af tsc ks options =
        .ok (options ++ ks.flatMap (block isValueValid af tsc)) := by
  induction ks with
  | nil => intro options _; simp [forEachFilter]
  | cons k ks ih =>
    intro options h
    obtain ⟨pushed, hp⟩ := h k (List.mem_cons_self _ _)
    have hrest := ih (options ++ pushed) fun s hs => h s (List.mem_cons_of_mem _ hs)
    simp [forEachFilter, hp, hrest, block, List.flatMap_cons]

theorem forEachFilter_error (isValueValid : JSString → Bool)
    (af : JSObject (List FilterEntry)) (tsc : JSObject JSMap) (ks : List JSString) :
    ∀ options : List SelectOption,
      (∃ s ∈ ks, ∃ e, filterOptions isValueValid af tsc s = .error e) →
      forEachFilter isValueValid af tsc ks options = .error .typeError := by
  induction ks with
  | nil => intro options h; obtain ⟨s, hs, _⟩ := h; simp at hs
  | cons k ks ih =>
    intro options h
    cases hk : filterOptions isValueValid af tsc k with
    | error e =>
      obtain ⟨rfl, _⟩ := filterOptions_error isValueValid af tsc k e hk
      simp [forEachFilter, hk]
    | ok pushed =>
      obtain ⟨s, hs, e, he⟩ := h
      rcases List.mem_cons.1 hs with rfl | hs
      · rw [hk] at he; simp at he
      · simp only [forEachFilter, hk]
        exact ih _ ⟨s, hs, e, he⟩

/-- On inputs where every string key of `activeFilters` has a count table, `makeOptions` returns
the blocks of the string keys, in key order, followed by the leaf options when `strainSymbol`
is a key. -/
theorem makeOptions_eq (isValueValid : JSString → Bool)
    (af : JSObject (List FilterEntry)) (tsc : JSObject JSMap) (nodes : List TreeNode)
    (h : ∀ s ∈ af.keys, (tsc.get (.str s)).isSome = true) :
    makeOptions isValueValid af tsc nodes =
      .ok (af.keys.flatMap (block isValueValid af tsc) ++
        if af.has .strainSymbol then strainOptions nodes else []) := by
  have hok : ∀ s ∈ af.keys, ∃ pushed, filterOptions isValueValid af tsc s = .ok pushed := by
    intro s hs
    obtain ⟨entries, ha⟩ := af.get_of_mem (.str s) ((af.mem_keys s).1 hs)
    obtain ⟨table, ht⟩ := Option.isSome_iff_exists.1 (h s hs)
    exact ⟨_, filterOptions_ok isValueValid af tsc s entries table ha ht⟩
  unfold makeOptions
  rw [forEachFilter_ok isValueValid af tsc af.keys [] hok]
  by_cases hs : af.has .strainSymbol = true <;> simp [hs]

/-- When some string key of `activeFilters` has no count table, `makeOptions` raises. -/
theorem makeOptions_error (isValueValid : JSString → Bool)
    (af : JSObject (List FilterEntry)) (tsc : JSObject JSMap) (nodes : List TreeNode)
    (h : ∃ s ∈ af.keys, tsc.get (.str s) = none) :
    makeOptions isValueValid af tsc nodes = .error .typeError := by
  obtain ⟨s, hs, hn⟩ := h
  have herr : ∃ e, filterOptions isValueValid af tsc s = .error e := by
    unfold filterOptions
    cases af.get (.str s) with
    | none => exact ⟨_, rfl⟩
    | some entries => rw [hn]; exact ⟨_, rfl⟩
  unfold makeOptions
  rw [forEachFilter_error isValueValid af tsc af.keys [] ⟨s, hs, herr⟩]

theorem makeOptions_ok_tabled (isValueValid : JSString → Bool)
    (af : JSObject (List FilterEntry)) (tsc : JSObject JSMap) (nodes : List TreeNode)
    (opts : List SelectOption) (hres : makeOptions isValueValid af tsc nodes = .ok opts) :
    ∀ s ∈ af.keys, (tsc.get (.str s)).isSome = true := by
  intro s hs
  cases hg : tsc.get (.str s) with
  | some t => rfl
  | none =>
    rw [makeOptions_error isValueValid af tsc nodes ⟨s, hs, hg⟩] at hres
    cases hres

/-- Whenever `makeOptions` returns, the list is the blocks of the string keys, in key order,
followed by the leaf options when `strainSymbol` is a key. -/
theorem makeOptions_ok_eq (isValueValid : JSString → Bool)
    (af : JSObject (List FilterEntry)) (tsc : JSObject JSMap) (nodes : List TreeNode)
    (opts : List SelectOption) (hres : makeOptions isValueValid af tsc nodes = .ok opts) :
    opts = af.keys.flatMap (block isValueValid af tsc) ++
      if af.has .strainSymbol then strainOptions nodes else [] := by
  rw [makeOptions_eq isValueValid af tsc nodes
    (makeOptions_ok_tabled isValueValid af tsc nodes opts hres)] at hres
  exact (Except.ok.inj hres).symm

/-! ## One block -/

theorem mem_candidates (isValueValid : JSString → Bool) (entries : List FilterEntry)
    (table : JSMap) (v : JSString) :
    v ∈ candidates isValueValid entries table ↔
      v ∈ table.keys ∧ isValueValid v = true ∧ ∀ e ∈ entries, e.active = true → e.value ≠ v := by
  unfold candidates
  simp only [List.mem_filter, Bool.not_eq_true', List.contains_eq_any_beq, List.any_eq_false,
    List.mem_map, beq_iff_eq, forall_exists_index, and_imp, and_assoc]
  constructor
  · rintro ⟨h1, h2, h3⟩
    exact ⟨h1, h2, fun e he ha hv => h3 v e he ha hv (by simp)⟩
  · rintro ⟨h1, h2, h3⟩
    refine ⟨h1, h2, fun w e he ha hv => ?_⟩
    subst hv
    simpa using fun h => h3 e he ha h.symm

theorem candidates_nodup (isValueValid : JSString → Bool) (entries : List FilterEntry)
    (table : JSMap) : (candidates isValueValid entries table).Nodup :=
  (table.nodup.filter _).filter _

theorem sort_perm (xs : List JSString) : (sort xs).Perm xs :=
  List.perm_insertionSort _ xs

theorem mem_sort (xs : List JSString) (v : JSString) : v ∈ sort xs ↔ v ∈ xs :=
  (sort_perm xs).mem_iff

theorem sort_strict (xs : List JSString) (h : xs.Nodup) : (sort xs).Sorted (· < ·) :=
  (List.sorted_insertionSort (· ≤ ·) xs).lt_of_le ((sort_perm xs).nodup_iff.2 h)

theorem pushedOptions_eq (isValueValid : JSString → Bool) (s : JSString)
    (entries : List FilterEntry) (table : JSMap) :
    pushedOptions isValueValid s entries table =
      (sort (candidates isValueValid entries table)).map fun v =>
        { label := s ++ arrow ++ v, value := (FilterName.str s, v) } := rfl

theorem pushedOptions_values (isValueValid : JSString → Bool) (s : JSString)
    (entries : List FilterEntry) (table : JSMap) :
    (pushedOptions isValueValid s entries table).map (fun o => o.value.2) =
      sort (candidates isValueValid entries table) := by
  rw [pushedOptions_eq, List.map_map]
  exact List.map_id _

theorem mem_pushedOptions (isValueValid : JSString → Bool) (s : JSString)
    (entries : List FilterEntry) (table : JSMap) (o : SelectOption) :
    o ∈ pushedOptions isValueValid s entries table ↔
      ∃ v, v ∈ candidates isValueValid entries table ∧
        o = { label := s ++ arrow ++ v, value := (FilterName.str s, v) } := by
  rw [pushedOptions_eq, List.mem_map]
  constructor
  · rintro ⟨v, hv, rfl⟩; exact ⟨v, (mem_sort _ v).1 hv, rfl⟩
  · rintro ⟨v, hv, rfl⟩; exact ⟨v, (mem_sort _ v).2 hv, rfl⟩

theorem pushedOptions_nodup (isValueValid : JSString → Bool) (s : JSString)
    (entries : List FilterEntry) (table : JSMap) :
    ((pushedOptions isValueValid s entries table).map fun o => o.value).Nodup := by
  have h : ((pushedOptions isValueValid s entries table).map fun o => o.value) =
      (sort (candidates isValueValid entries table)).map fun v => (FilterName.str s, v) := by
    rw [pushedOptions_eq, List.map_map]; rfl
  rw [h]
  refine List.Nodup.map ?_ ((sort_perm _).nodup_iff.2 (candidates_nodup _ _ _))
  intro a b hab
  exact (Prod.mk.inj hab).2

/-- Every option of the block of `s` has category `s`, whatever the inputs. -/
theorem block_category (isValueValid : JSString → Bool)
    (af : JSObject (List FilterEntry)) (tsc : JSObject JSMap) (s : JSString)
    (o : SelectOption) (h : o ∈ block isValueValid af tsc s) :
    o.value.1 = .str s ∧ o.label = s ++ arrow ++ o.value.2 := by
  unfold block at h
  cases hf : filterOptions isValueValid af tsc s with
  | error e => rw [hf] at h; simp at h
  | ok pushed =>
    rw [hf] at h
    unfold filterOptions at hf
    cases ha : af.get (.str s) with
    | none => rw [ha] at hf; simp at hf
    | some entries =>
      rw [ha] at hf
      cases ht : tsc.get (.str s) with
      | none => rw [ht] at hf; simp at hf
      | some table =>
        rw [ht] at hf
        simp only [Except.ok.injEq] at hf
        subst hf
        obtain ⟨v, _, rfl⟩ := (mem_pushedOptions _ _ _ _ _).1 h
        exact ⟨rfl, rfl⟩

theorem strainOptions_category (nodes : List TreeNode) (o : SelectOption)
    (h : o ∈ strainOptions nodes) : o.value.1 = .strainSymbol := by
  unfold strainOptions at h
  obtain ⟨n, _, rfl⟩ := List.mem_map.1 h
  rfl

/-! ## The ordinary part of the option list -/

theorem count_eq_one_of_nodup {α : Type} [BEq α] [LawfulBEq α] (l : List α) (h : l.Nodup)
    (a : α) (ha : a ∈ l) : l.count a = 1 := by
  induction l with
  | nil => simp at ha
  | cons b l ih =>
    rw [List.nodup_cons] at h
    rcases List.mem_cons.1 ha with rfl | hm
    · rw [List.count_cons_self, List.count_eq_zero_of_not_mem h.1]
    · have hne : (b == a) = false := by
        rw [beq_eq_false_iff_ne]
        rintro rfl
        exact h.1 hm
      rw [List.count_cons, ih h.2 hm, hne]
      rfl

theorem mem_block (isValueValid : JSString → Bool)
    (af : JSObject (List FilterEntry)) (tsc : JSObject JSMap) (c : JSString) (o : SelectOption) :
    o ∈ block isValueValid af tsc c ↔
      ∃ v, Offered isValueValid af tsc c v ∧
        o = { label := c ++ arrow ++ v, value := (FilterName.str c, v) } := by
  constructor
  · intro h
    unfold block filterOptions at h
    cases ha : af.get (.str c) with
    | none => rw [ha] at h; simp at h
    | some entries =>
      rw [ha] at h
      cases ht : tsc.get (.str c) with
      | none => rw [ht] at h; simp at h
      | some table =>
        rw [ht] at h
        obtain ⟨v, hv, rfl⟩ := (mem_pushedOptions _ _ _ _ _).1 h
        exact ⟨v, ⟨entries, table, ha, ht, (mem_candidates _ _ _ _).1 hv⟩, rfl⟩
  · rintro ⟨v, ⟨entries, table, ha, ht, hv⟩, rfl⟩
    rw [block_eq isValueValid af tsc c entries table ha ht]
    exact (mem_pushedOptions _ _ _ _ _).2 ⟨v, (mem_candidates _ _ _ _).2 hv, rfl⟩

theorem mem_ordinary (isValueValid : JSString → Bool)
    (af : JSObject (List FilterEntry)) (tsc : JSObject JSMap) (o : SelectOption) :
    o ∈ af.keys.flatMap (block isValueValid af tsc) ↔
      ∃ c v, Offered isValueValid af tsc c v ∧
        o = { label := c ++ arrow ++ v, value := (FilterName.str c, v) } := by
  rw [List.mem_flatMap]
  constructor
  · rintro ⟨c, _, h⟩
    obtain ⟨v, hv, ho⟩ := (mem_block _ _ _ _ _).1 h
    exact ⟨c, v, hv, ho⟩
  · rintro ⟨c, v, hv, ho⟩
    obtain ⟨entries, _, ha, _⟩ := id hv
    exact ⟨c, (af.mem_keys c).2 (af.mem_of_get _ _ ha), (mem_block _ _ _ _ _).2 ⟨v, hv, ho⟩⟩

theorem block_values_nodup (isValueValid : JSString → Bool)
    (af : JSObject (List FilterEntry)) (tsc : JSObject JSMap) (c : JSString) :
    ((block isValueValid af tsc c).map fun o => o.value).Nodup := by
  unfold block filterOptions
  cases af.get (.str c) with
  | none => simp
  | some entries =>
    cases tsc.get (.str c) with
    | none => simp
    | some table => exact pushedOptions_nodup _ _ _ _

theorem ordinary_values_nodup (isValueValid : JSString → Bool)
    (af : JSObject (List FilterEntry)) (tsc : JSObject JSMap) :
    ((af.keys.flatMap (block isValueValid af tsc)).map fun o => o.value).Nodup := by
  rw [List.map_flatMap, List.nodup_flatMap]
  refine ⟨fun c _ => block_values_nodup _ _ _ c, ?_⟩
  refine List.Pairwise.imp ?_ af.keys_nodup
  intro a b hab
  show List.Disjoint _ _
  intro x hxa hxb
  obtain ⟨oa, hoa, rfl⟩ := List.mem_map.1 hxa
  obtain ⟨ob, hob, hv⟩ := List.mem_map.1 hxb
  have h1 := (block_category _ _ _ _ _ hoa).1
  have h2 := (block_category _ _ _ _ _ hob).1
  rw [hv, h1] at h2
  exact hab (FilterName.str.inj h2)

theorem strain_part_category (af : JSObject (List FilterEntry)) (nodes : List TreeNode)
    (o : SelectOption)
    (h : o ∈ (if af.has .strainSymbol then strainOptions nodes else [])) :
    o.value.1 = .strainSymbol := by
  by_cases hs : af.has .strainSymbol = true
  · rw [if_pos hs] at h; exact strainOptions_category nodes o h
  · rw [if_neg hs] at h; simp at h

/-- C1. When `totalStateCounts` has a table for every string key of `activeFilters`,
`makeOptions` returns a list in which the options of string-named categories are exactly the
offered pairs: every offered pair `(c, v)` occurs exactly once, no other pair with a string
category occurs, and the option of `(c, v)` is labelled `c → v`. -/
theorem makeOptions_ordinary_exact (isValueValid : JSString → Bool)
    (activeFilters : JSObject (List FilterEntry)) (totalStateCounts : JSObject JSMap)
    (nodes : List TreeNode)
    (h : ∀ s ∈ activeFilters.keys, (totalStateCounts.get (.str s)).isSome = true) :
    ∃ opts, makeOptions isValueValid activeFilters totalStateCounts nodes = .ok opts ∧
      (∀ o ∈ opts, ∀ c, o.value.1 = .str c → o.label = c ++ utf16 " → " ++ o.value.2) ∧
      ∀ c v : JSString,
        (Offered isValueValid activeFilters totalStateCounts c v →
          (opts.map fun o => o.value).count (.str c, v) = 1) ∧
        (¬ Offered isValueValid activeFilters totalStateCounts c v →
          (opts.map fun o => o.value).count (.str c, v) = 0) := by
  refine ⟨_, makeOptions_eq isValueValid activeFilters totalStateCounts nodes h, ?_, ?_⟩
  · intro o ho c hc
    rcases List.mem_append.1 ho with ho | ho
    · obtain ⟨s, _, hs⟩ := List.mem_flatMap.1 ho
      have := block_category _ _ _ _ _ hs
      rw [this.1] at hc
      rw [this.2, FilterName.str.inj hc]
      rfl
    · rw [strain_part_category _ _ _ ho] at hc
      cases hc
  · intro c v
    have hstrain : ((if activeFilters.has .strainSymbol then strainOptions nodes else []).map
        fun o => o.value).count (FilterName.str c, v) = 0 := by
      apply List.count_eq_zero_of_not_mem
      intro hm
      obtain ⟨o, ho, hv⟩ := List.mem_map.1 hm
      have := strain_part_category _ _ _ ho
      rw [hv] at this
      cases this
    have hmem : (FilterName.str c, v) ∈
        ((activeFilters.keys.flatMap (block isValueValid activeFilters totalStateCounts)).map
          fun o => o.value) ↔ Offered isValueValid activeFilters totalStateCounts c v := by
      rw [List.mem_map]
      constructor
      · rintro ⟨o, ho, hv⟩
        obtain ⟨c', v', hoff, rfl⟩ := (mem_ordinary _ _ _ _).1 ho
        simp only [Prod.mk.injEq, FilterName.str.injEq] at hv
        rw [← hv.1, ← hv.2]
        exact hoff
      · intro hoff
        exact ⟨_, (mem_ordinary _ _ _ _).2 ⟨c, v, hoff, rfl⟩, rfl⟩
    rw [List.map_append, List.count_append, hstrain, Nat.add_zero]
    constructor
    · intro hoff
      exact count_eq_one_of_nodup _ (ordinary_values_nodup _ _ _) _ (hmem.2 hoff)
    · intro hoff
      exact List.count_eq_zero_of_not_mem fun hm => hoff (hmem.1 hm)

/-- C2, the defect. With the sample `s1` active in the `strainSymbol` category and `s1` a leaf
of the tree, `makeOptions` still offers `(strainSymbol, s1)`: the leaf options are pushed
without the removal of enabled values that the count-table options go through. -/
theorem makeOptions_offers_active_strain :
    strainActive.get .strainSymbol = some [⟨utf16 "s1", true⟩] ∧
    makeOptions allValid strainActive noCounts oneLeaf =
      .ok [⟨utf16 "sample → s1", (.strainSymbol, utf16 "s1")⟩] := by
  decide

/-- C3, as stated, fails: with the empty filters object and the count table of `country`,
`makeOptions` returns no option, not the two options of `country`. -/
theorem makeOptions_noFilters_counter :
    makeOptions allValid noFilters countryCounts [] = .ok [] ∧
    makeOptions allValid noFilters countryCounts [] ≠
      .ok [⟨utf16 "country → A", (.str (utf16 "country"), utf16 "A")⟩,
           ⟨utf16 "country → B", (.str (utf16 "country"), utf16 "B")⟩] := by
  decide

/-- C3, amended. A category contributes options only when it is a key of the filters object:
with no key at all `makeOptions` returns the empty list whatever the count tables; with
`{country: []}` and the count table `{A: 3, B: 2}` it returns `(country, A)`, `(country, B)` in
that order; with `A` active in `country` it returns exactly `(country, B)`. -/
theorem makeOptions_country_example :
    (∀ (isValueValid : JSString → Bool) (totalStateCounts : JSObject JSMap)
        (nodes : List TreeNode),
        makeOptions isValueValid noFilters totalStateCounts nodes = .ok []) ∧
    (∀ nodes : List TreeNode, makeOptions allValid countryIdle countryCounts nodes =
      .ok [⟨utf16 "country → A", (.str (utf16 "country"), utf16 "A")⟩,
           ⟨utf16 "country → B", (.str (utf16 "country"), utf16 "B")⟩]) ∧
    (∀ nodes : List TreeNode, makeOptions allValid countryA countryCounts nodes =
      .ok [⟨utf16 "country → B", (.str (utf16 "country"), utf16 "B")⟩]) := by
  exact ⟨fun _ _ _ => rfl, fun _ => rfl, fun _ => rfl⟩

/-- C4, as stated, fails: a key of the filters object without a count table makes
`makeOptions` raise instead of returning a list. -/
theorem makeOptions_missing_table_counter :
    countryIdle.keys = [utf16 "country"] ∧
    noCounts.get (.str (utf16 "country")) = none ∧
    makeOptions allValid countryIdle noCounts [] = .error .typeError ∧
    ¬ ∃ opts, makeOptions allValid countryIdle noCounts [] = .ok opts := by
  refine ⟨by decide, rfl, by decide, ?_⟩
  rintro ⟨opts, h⟩
  have h2 : makeOptions allValid countryIdle noCounts [] = .error .typeError := by decide
  rw [h2] at h
  cases h

/-- C4, amended. `makeOptions` returns a list exactly when every string key of the filters
object has a count table; when some string key has none it raises a `TypeError` and returns
no option at all. -/
theorem makeOptions_returns_iff (isValueValid : JSString → Bool)
    (activeFilters : JSObject (List FilterEntry)) (totalStateCounts : JSObject JSMap)
    (nodes : List TreeNode) :
    ((∃ opts, makeOptions isValueValid activeFilters totalStateCounts nodes = .ok opts) ↔
      ∀ s ∈ activeFilters.keys, (totalStateCounts.get (.str s)).isSome = true) ∧
    (makeOptions isValueValid activeFilters totalStateCounts nodes = .error .typeError ↔
      ∃ s ∈ activeFilters.keys, totalStateCounts.get (.str s) = none) := by
  by_cases h : ∀ s ∈ activeFilters.keys, (totalStateCounts.get (.str s)).isSome = true
  · have hok := makeOptions_eq isValueValid activeFilters totalStateCounts nodes h
    refine ⟨⟨fun _ => h, fun _ => ⟨_, hok⟩⟩, ⟨fun he => ?_, fun hn => ?_⟩⟩
    · rw [hok] at he; cases he
    · obtain ⟨s, hs, hn⟩ := hn
      have := h s hs
      rw [hn] at this
      cases this
  · have hex : ∃ s ∈ activeFilters.keys, totalStateCounts.get (.str s) = none := by
      by_contra hc
      apply h
      intro s hs
      cases hg : totalStateCounts.get (.str s) with
      | none => exact absurd ⟨s, hs, hg⟩ hc
      | some t => rfl
    have herr := makeOptions_error isValueValid activeFilters totalStateCounts nodes hex
    refine ⟨⟨fun ho => ?_, fun ht => absurd ht h⟩, ⟨fun _ => hex, fun _ => herr⟩⟩
    obtain ⟨opts, ho⟩ := ho
    rw [herr] at ho
    cases ho

theorem block_sorted (isValueValid : JSString → Bool)
    (af : JSObject (List FilterEntry)) (tsc : JSObject JSMap) (c : JSString) :
    ((block isValueValid af tsc c).map fun o => o.value.2).Sorted (· < ·) := by
  unfold block filterOptions
  cases af.get (.str c) with
  | none => simp
  | some entries =>
    cases tsc.get (.str c) with
    | none => simp
    | some table =>
      show ((pushedOptions isValueValid c entries table).map fun o => o.value.2).Sorted (· < ·)
      rw [pushedOptions_values]
      exact sort_strict _ (candidates_nodup _ _ _)

theorem flatMap_block_category (isValueValid : JSString → Bool)
    (af : JSObject (List FilterEntry)) (tsc : JSObject JSMap) (ks : List JSString)
    (o : SelectOption) (h : o ∈ ks.flatMap (block isValueValid af tsc)) :
    ∃ s ∈ ks, o.value.1 = .str s := by
  obtain ⟨s, hs, ho⟩ := List.mem_flatMap.1 h
  exact ⟨s, hs, (block_category _ _ _ _ _ ho).1⟩

/-- C5. In the list returned by `makeOptions`, the options of each string-named category `c`
form one contiguous block (no option of category `c` stands before or after it), and inside
the block the values are strictly ascending in the lexicographic order of code units,
whatever the order of the keys of the count table. -/
theorem makeOptions_blocks_sorted (isValueValid : JSString → Bool)
    (activeFilters : JSObject (List FilterEntry)) (totalStateCounts : JSObject JSMap)
    (nodes : List TreeNode) (opts : List SelectOption)
    (hres : makeOptions isValueValid activeFilters totalStateCounts nodes = .ok opts)
    (c : JSString) :
    ∃ before blk after, opts = before ++ blk ++ after ∧
      (∀ o ∈ before, o.value.1 ≠ .str c) ∧
      (∀ o ∈ blk, o.value.1 = .str c) ∧
      (∀ o ∈ after, o.value.1 ≠ .str c) ∧
      (blk.map fun o => o.value.2).Sorted (· < ·) := by
  rw [makeOptions_ok_eq isValueValid activeFilters totalStateCounts nodes opts hres]
  by_cases hc : c ∈ activeFilters.keys
  · obtain ⟨l1, l2, hl⟩ := List.append_of_mem hc
    have hnd := activeFilters.keys_nodup
    rw [hl] at hnd
    have hc1 : c ∉ l1 := fun hm =>
      (List.nodup_append.1 hnd).2.2 hm (List.mem_cons_self _ _)
    have hc2 : c ∉ l2 := (List.nodup_cons.1 (List.nodup_append.1 hnd).2.1).1
    refine ⟨l1.flatMap (block isValueValid activeFilters totalStateCounts),
      block isValueValid activeFilters totalStateCounts c,
      l2.flatMap (block isValueValid activeFilters totalStateCounts) ++
        (if activeFilters.has .strainSymbol then strainOptions nodes else []), ?_, ?_, ?_, ?_, ?_⟩
    · rw [hl, List.flatMap_append, List.flatMap_cons]
      simp only [List.append_assoc]
    · intro o ho heq
      obtain ⟨s, hs, hcat⟩ := flatMap_block_category _ _ _ _ _ ho
      rw [hcat] at heq
      exact hc1 (FilterName.str.inj heq ▸ hs)
    · intro o ho
      exact (block_category _ _ _ _ _ ho).1
    · intro o ho heq
      rcases List.mem_append.1 ho with ho | ho
      · obtain ⟨s, hs, hcat⟩ := flatMap_block_category _ _ _ _ _ ho
        rw [hcat] at heq
        exact hc2 (FilterName.str.inj heq ▸ hs)
      · rw [strain_part_category _ _ _ ho] at heq
        cases heq
    · exact block_sorted _ _ _ c
  · refine ⟨activeFilters.keys.flatMap (block isValueValid activeFilters totalStateCounts) ++
      (if activeFilters.has .strainSymbol then strainOptions nodes else []), [], [],
      by simp, ?_, by simp, by simp, by simp⟩
    intro o ho heq
    rcases List.mem_append.1 ho with ho | ho
    · obtain ⟨s, hs, hcat⟩ := flatMap_block_category _ _ _ _ _ ho
      rw [hcat] at heq
      exact hc (FilterName.str.inj heq ▸ hs)
    · rw [strain_part_category _ _ _ ho] at heq
      cases heq

/-- C6. The options of the `strainSymbol` category come from the leaves of the tree only.
When `strainSymbol` is a key of the filters object the returned list is the options of the
string-named categories followed by one option `(strainSymbol, n.name)`, labelled
`sample → n.name`, for each node `n` without children, in the order of `nodes`; when it is not
a key, no returned option has category `strainSymbol`. -/
theorem makeOptions_strain (isValueValid : JSString → Bool)
    (activeFilters : JSObject (List FilterEntry)) (totalStateCounts : JSObject JSMap)
    (nodes : List TreeNode) (opts : List SelectOption)
    (hres : makeOptions isValueValid activeFilters totalStateCounts nodes = .ok opts) :
    ∃ ordinary, (∀ o ∈ ordinary, ∃ c, o.value.1 = .str c) ∧
      (FilterName.strainSymbol ∈ activeFilters.keyList →
        opts = ordinary ++ (nodes.filter fun n => n.hasChildren = false).map fun n =>
          { label := utf16 "sample → " ++ n.name, value := (FilterName.strainSymbol, n.name) }) ∧
      (FilterName.strainSymbol ∉ activeFilters.keyList →
        opts = ordinary ∧ ∀ o ∈ opts, o.value.1 ≠ .strainSymbol) := by
  rw [makeOptions_ok_eq isValueValid activeFilters totalStateCounts nodes opts hres]
  refine ⟨activeFilters.keys.flatMap (block isValueValid activeFilters totalStateCounts),
    ?_, ?_, ?_⟩
  · intro o ho
    obtain ⟨s, _, hcat⟩ := flatMap_block_category _ _ _ _ _ ho
    exact ⟨s, hcat⟩
  · intro hk
    rw [if_pos ((activeFilters.has_iff _).2 hk)]
    congr 1
    unfold strainOptions
    have hf : (nodes.filter fun n => !n.hasChildren) =
        nodes.filter fun n => n.hasChildren = false := by
      apply List.filter_congr
      intro n _
      cases n.hasChildren <;> rfl
    rw [hf]
    apply List.map_congr_left
    intro n _
    rfl
  · intro hk
    have hno : ¬ activeFilters.has .strainSymbol = true := fun hh =>
      hk ((activeFilters.has_iff _).1 hh)
    rw [if_neg hno, List.append_nil]
    refine ⟨rfl, ?_⟩
    intro o ho heq
    obtain ⟨s, _, hcat⟩ := flatMap_block_category _ _ _ _ _ ho
    rw [hcat] at heq
    cases heq

/-! ## Clearing a category -/

theorem clearCategory_keyList (af : JSObject (List FilterEntry)) (k : FilterName) :
    (clearCategory af k).keyList = af.keyList := by
  unfold JSObject.keyList clearCategory
  simp only [List.map_map]
  apply List.map_congr_left
  intro p _
  by_cases hp : p.1 = k <;> simp [hp]

theorem clearCategory_keys (af : JSObject (List FilterEntry)) (k : FilterName) :
    (clearCategory af k).keys = af.keys := by
  unfold JSObject.keys clearCategory
  simp only [List.filterMap_map]
  apply List.filterMap_congr
  intro p _
  by_cases hp : p.1 = k <;> simp [hp]

theorem clearCategory_get_self (af : JSObject (List FilterEntry)) (k : FilterName)
    (h : k ∈ af.keyList) : (clearCategory af k).get k = some [] := by
  rw [JSObject.get_eq_some_iff]
  obtain ⟨p, hp, rfl⟩ := List.mem_map.1 h
  exact List.mem_map.2 ⟨p, hp, by simp⟩

/-- C7, as stated, fails: a table for the cleared category alone is not enough. With the keys
`country` and `region`, a count table for `country` only, and `country` cleared, `makeOptions`
raises on `region` and offers nothing, not even the valid value `A` of `country`. -/
theorem clearCategory_counter :
    FilterName.str (utf16 "country") ∈ countryRegion.keyList ∧
    (∃ table, countryCounts.get (.str (utf16 "country")) = some table ∧
      utf16 "A" ∈ table.keys ∧ allValid (utf16 "A") = true) ∧
    makeOptions allValid (clearCategory countryRegion (.str (utf16 "country"))) countryCounts [] =
      .error .typeError ∧
    ¬ ∃ opts, makeOptions allValid (clearCategory countryRegion (.str (utf16 "country")))
        countryCounts [] = .ok opts ∧
      { label := utf16 "country → A", value := (FilterName.str (utf16 "country"), utf16 "A") }
        ∈ opts := by
  have herr : makeOptions allValid (clearCategory countryRegion (.str (utf16 "country")))
      countryCounts [] = .error .typeError := by decide
  refine ⟨by decide, ⟨_, rfl, by decide, rfl⟩, herr, ?_⟩
  rintro ⟨opts, h, _⟩
  rw [herr] at h
  cases h

/-- C7, amended. When `totalStateCounts` has a table for every string key of `activeFilters`,
clearing the string category `C` makes `makeOptions` return a list that contains the option
`(C, v)` for every valid key `v` of the table of `C`. -/
theorem clearCategory_restores (isValueValid : JSString → Bool)
    (activeFilters : JSObject (List FilterEntry)) (totalStateCounts : JSObject JSMap)
    (nodes : List TreeNode) (C : JSString) (table : JSMap)
    (hC : FilterName.str C ∈ activeFilters.keyList)
    (hT : totalStateCounts.get (.str C) = some table)
    (h : ∀ s ∈ activeFilters.keys, (totalStateCounts.get (.str s)).isSome = true) :
    ∃ opts, makeOptions isValueValid (clearCategory activeFilters (.str C)) totalStateCounts
        nodes = .ok opts ∧
      ∀ v ∈ table.keys, isValueValid v = true →
        { label := C ++ utf16 " → " ++ v, value := (FilterName.str C, v) } ∈ opts := by
  have h2 : ∀ s ∈ (clearCategory activeFilters (.str C)).keys,
      (totalStateCounts.get (.str s)).isSome = true := by
    rw [clearCategory_keys]; exact h
  refine ⟨_, makeOptions_eq isValueValid _ totalStateCounts nodes h2, ?_⟩
  intro v hv hvalid
  apply List.mem_append_left
  rw [mem_ordinary]
  refine ⟨C, v, ⟨[], table, clearCategory_get_self _ _ hC, hT, hv, hvalid, ?_⟩, rfl⟩
  intro e he
  simp at he

/-! ## The badges -/

theorem entriesOf_of_mem (af : JSObject (List FilterEntry)) (p : FilterName × List FilterEntry)
    (h : p ∈ af.props) : entriesOf af p.1 = p.2 := by
  unfold entriesOf
  rw [(af.get_eq_some_iff p.1 p.2).2 h]
  rfl

theorem filterNames_ok (af : JSObject (List FilterEntry)) (ks : List FilterName)
    (h : ∀ k ∈ ks, k ∈ af.keyList) :
    filterNames af ks = .ok (ks.filter fun k => decide ((entriesOf af k).length > 0)) := by
  induction ks with
  | nil => rfl
  | cons k ks ih =>
    obtain ⟨entries, he⟩ := af.get_of_mem k (h k (List.mem_cons_self _ _))
    have hrest := ih fun k' hk' => h k' (List.mem_cons_of_mem _ hk')
    have hE : entriesOf af k = entries := by unfold entriesOf; rw [he]; rfl
    simp only [filterNames, he, hrest, List.filter_cons, hE]
    by_cases hl : entries.length > 0 <;> simp [hl]

theorem mapSummarise_ok (af : JSObject (List FilterEntry)) (ks : List FilterName)
    (h : ∀ k ∈ ks, k ∈ af.keyList) :
    mapSummarise af ks = .ok (ks.map (summaryOf af)) := by
  induction ks with
  | nil => rfl
  | cons k ks ih =>
    obtain ⟨entries, he⟩ := af.get_of_mem k (h k (List.mem_cons_self _ _))
    have hrest := ih fun k' hk' => h k' (List.mem_cons_of_mem _ hk')
    have hE : entriesOf af k = entries := by unfold entriesOf; rw [he]; rfl
    simp only [mapSummarise, summarise, he, hrest, List.map_cons, summaryOf, hE]

theorem mem_ownKeys (af : JSObject (List FilterEntry)) (k : FilterName) :
    k ∈ af.ownKeys ↔ k ∈ af.keyList := by
  unfold JSObject.ownKeys
  simp only [List.mem_append, List.mem_filter]
  constructor
  · rintro (h | h) <;> exact h.1
  · intro h
    cases k with
    | str s => exact Or.inl ⟨h, rfl⟩
    | strainSymbol => exact Or.inr ⟨h, rfl⟩

/-- The method `summariseFilters` never faults: it returns the summaries of the own keys whose array is
non-empty, in the order of `Reflect.ownKeys`. -/
theorem summariseFilters_eq (af : JSObject (List FilterEntry)) :
    summariseFilters af =
      .ok ((af.ownKeys.filter fun k => decide ((entriesOf af k).length > 0)).map
        (summaryOf af)) := by
  unfold summariseFilters
  rw [filterNames_ok af af.ownKeys fun k hk => (mem_ownKeys af k).1 hk]
  exact mapSummarise_ok af _ fun k hk => (mem_ownKeys af k).1 (List.mem_filter.1 hk).1

theorem ownKeys_perm (af : JSObject (List FilterEntry)) : af.ownKeys.Perm af.keyList := by
  unfold JSObject.ownKeys
  have h : (af.keyList.filter fun k => k matches .strainSymbol) =
      af.keyList.filter fun k => !(k matches .str _) := by
    apply List.filter_congr
    intro k _
    cases k <;> rfl
  rw [h]
  exact List.filter_append_perm _ _

theorem keyList_filter_length (af : JSObject (List FilterEntry))
    (q : List FilterEntry → Bool) :
    (af.keyList.filter fun k => q (entriesOf af k)).length =
      (af.props.filter fun p => q p.2).length := by
  unfold JSObject.keyList
  rw [List.filter_map, List.length_map]
  congr 1
  apply List.filter_congr
  intro p hp
  simp only [Function.comp_apply]
  rw [entriesOf_of_mem af p hp]

theorem subtitleText_eq (n : Nat) :
    subtitleText n = numberToString n ++
      (if n = 1 then utf16 " type of filter currently active:"
       else utf16 " types of filters currently active:") := by
  unfold subtitleText
  split_ifs
  · simp only [List.append_assoc, List.nil_append]
    rfl
  · simp only [List.append_assoc]
    rfl

/-- C8, as stated, fails: a category whose only entry is inactive still gets a badge, so one
type of filter is announced while no category has an active entry. -/
theorem summariseFilters_inactive_counter :
    summariseFilters countryInactive =
      .ok [⟨.str (utf16 "country"), utf16 "country (n=0)",
        [⟨utf16 "set", .str (utf16 "country"), []⟩]⟩] ∧
    renderSubtitle [⟨.str (utf16 "country"), utf16 "country (n=0)",
        [⟨utf16 "set", .str (utf16 "country"), []⟩]⟩] =
      some (utf16 "1 type of filter currently active:") ∧
    (countryInactive.props.filter fun p => p.2.any fun f => f.active).length = 0 := by
  decide

/-- C8, amended. The badges summarise the categories in use: `summariseFilters` returns one
entry per own key whose array is non-empty, whether or not an entry of it is active. Every
returned entry belongs to a key with a non-empty array, the number of entries (the number
`render` announces) is the number of keys with a non-empty array, and it is at least the number
of keys with an active entry. -/
theorem summariseFilters_in_use (activeFilters : JSObject (List FilterEntry)) :
    ∃ inUseFilters, summariseFilters activeFilters = .ok inUseFilters ∧
      (∀ e ∈ inUseFilters, ∃ entries,
        activeFilters.get e.filterName = some entries ∧ entries.length > 0) ∧
      inUseFilters.length = (activeFilters.props.filter fun p => decide (p.2.length > 0)).length ∧
      (activeFilters.props.filter fun p => p.2.any fun f => f.active).length ≤
        inUseFilters.length ∧
      renderSubtitle inUseFilters =
        if inUseFilters.length = 0 then none
        else some (numberToString inUseFilters.length ++
          (if inUseFilters.length = 1 then utf16 " type of filter currently active:"
           else utf16 " types of filters currently active:")) := by
  refine ⟨_, summariseFilters_eq activeFilters, ?_, ?_, ?_, ?_⟩
  · intro e he
    obtain ⟨k, hk, rfl⟩ := List.mem_map.1 he
    obtain ⟨hk1, hk2⟩ := List.mem_filter.1 hk
    obtain ⟨entries, hg⟩ := activeFilters.get_of_mem k ((mem_ownKeys _ k).1 hk1)
    refine ⟨entries, hg, ?_⟩
    have hE : entriesOf activeFilters k = entries := by unfold entriesOf; rw [hg]; rfl
    rw [hE] at hk2
    exact of_decide_eq_true hk2
  · rw [List.length_map, ((ownKeys_perm activeFilters).filter _).length_eq]
    exact keyList_filter_length activeFilters fun es => decide (es.length > 0)
  · rw [List.length_map, ((ownKeys_perm activeFilters).filter _).length_eq,
      keyList_filter_length activeFilters fun es => decide (es.length > 0)]
    have hsub : (activeFilters.props.filter fun p => p.2.any fun f => f.active).Sublist
        (activeFilters.props.filter fun p => decide (p.2.length > 0)) := by
      apply List.monotone_filter_right
      intro p hp
      obtain ⟨f, hf, _⟩ := List.any_eq_true.1 hp
      exact decide_eq_true (List.length_pos_of_mem hf)
    exact hsub.length_le
  · unfold renderSubtitle
    rw [subtitleText_eq]
    split_ifs <;> first | rfl | omega

theorem keyList_filter_nonempty (af : JSObject (List FilterEntry)) (q : FilterName → Bool) :
    ((af.keyList.filter q).filter fun k => decide ((entriesOf af k).length > 0)) =
      (af.props.filter fun p => q p.1 && decide (p.2.length > 0)).map Prod.fst := by
  unfold JSObject.keyList
  rw [List.filter_filter, List.filter_map]
  congr 1
  apply List.filter_congr
  intro p hp
  simp only [Function.comp_apply]
  rw [entriesOf_of_mem af p hp, Bool.and_comm]

/-- C9. `summariseFilters` returns, for every filters object, one entry for each own key whose
array is non-empty and none for any other key, the string keys first and the symbol key after
them, each in own-key order. The entry of key `k` has `filterName = k`, its `displayName` is
`k (n=c)`, or `samples (n=c)` when `k` is `strainSymbol`, with `c` the number of active entries
of the array of `k`, and its `remove` callback dispatches the single action
`applyFilter("set", k, [])`. -/
theorem summariseFilters_spec (activeFilters : JSObject (List FilterEntry)) :
    ∃ summary, summariseFilters activeFilters = .ok summary ∧
      summary.map (fun e => e.filterName) =
        (activeFilters.props.filter fun p =>
          (p.1 matches .str _) && decide (p.2.length > 0)).map Prod.fst ++
        (activeFilters.props.filter fun p =>
          (p.1 matches .strainSymbol) && decide (p.2.length > 0)).map Prod.fst ∧
      (summary.map fun e => e.filterName).Nodup ∧
      ∀ e ∈ summary, ∃ entries, activeFilters.get e.filterName = some entries ∧
        (e.filterName = .strainSymbol → e.displayName =
          utf16 "samples (n=" ++ numberToString (entries.countP fun f => f.active) ++ utf16 ")") ∧
        (∀ k, e.filterName = .str k → e.displayName =
          k ++ utf16 " (n=" ++ numberToString (entries.countP fun f => f.active) ++ utf16 ")") ∧
        e.remove = [{ mode := utf16 "set", trait := e.filterName, values := [] }] := by
  have hnames : ((activeFilters.ownKeys.filter fun k =>
      decide ((entriesOf activeFilters k).length > 0)).map (summaryOf activeFilters)).map
        (fun e => e.filterName) =
      activeFilters.ownKeys.filter fun k => decide ((entriesOf activeFilters k).length > 0) := by
    rw [List.map_map]
    exact List.map_id _
  refine ⟨_, summariseFilters_eq activeFilters, ?_, ?_, ?_⟩
  · rw [hnames]
    unfold JSObject.ownKeys
    rw [List.filter_append, keyList_filter_nonempty, keyList_filter_nonempty]
  · rw [hnames]
    exact ((ownKeys_perm activeFilters).nodup_iff.2 activeFilters.nodup).filter _
  · intro e he
    obtain ⟨k, hk, rfl⟩ := List.mem_map.1 he
    obtain ⟨entries, hg⟩ :=
      activeFilters.get_of_mem k ((mem_ownKeys _ k).1 (List.mem_filter.1 hk).1)
    have hE : entriesOf activeFilters k = entries := by unfold entriesOf; rw [hg]; rfl
    refine ⟨entries, hg, ?_, ?_, rfl⟩
    · intro hs
      simp only [summaryOf] at hs
      subst hs
      simp only [summaryOf, displayName, hE, List.countP_eq_length_filter, List.append_assoc]
      rfl
    · intro s hs
      simp only [summaryOf] at hs
      subst hs
      simp only [summaryOf, displayName, hE, List.countP_eq_length_filter]

/-! ## Labels -/

theorem arrow_eq : arrow = [32, 8594, 32] := by decide

theorem arrow_inj (c₁ : JSString) : ∀ (c₂ v₁ v₂ : JSString), 8594 ∉ c₁ → 8594 ∉ c₂ →
    c₁ ++ arrow ++ v₁ = c₂ ++ arrow ++ v₂ → c₁ = c₂ ∧ v₁ = v₂ := by
  rw [arrow_eq]
  induction c₁ with
  | nil =>
    intro c₂ v₁ v₂ _ h2 h
    cases c₂ with
    | nil => simpa using h
    | cons y c₂ =>
      cases c₂ with
      | nil => simp at h
      | cons z c₂ =>
        simp only [List.nil_append, List.cons_append, List.cons.injEq] at h
        exact absurd (by rw [← h.2.1]; simp) h2
  | cons x c₁ ih =>
    intro c₂ v₁ v₂ h1 h2 h
    cases c₂ with
    | nil =>
      cases c₁ with
      | nil => simp at h
      | cons z c₁ =>
        simp only [List.nil_append, List.cons_append, List.cons.injEq] at h
        exact absurd (by rw [h.2.1]; simp) h1
    | cons y c₂ =>
      simp only [List.cons_append, List.cons.injEq] at h
      have hr := ih c₂ v₁ v₂ (fun hm => h1 (List.mem_cons_of_mem _ hm))
        (fun hm => h2 (List.mem_cons_of_mem _ hm)) (by simpa using h.2)
      exact ⟨by rw [h.1, hr.1], hr.2⟩

theorem mem_strainOptions (nodes : List TreeNode) (o : SelectOption) :
    o ∈ strainOptions nodes ↔ ∃ n ∈ nodes, n.hasChildren = false ∧
      o = { label := utf16 "sample" ++ arrow ++ n.name,
            value := (FilterName.strainSymbol, n.name) } := by
  unfold strainOptions
  simp only [List.mem_map, List.mem_filter, Bool.not_eq_true']
  constructor
  · rintro ⟨n, ⟨hn, hl⟩, rfl⟩; exact ⟨n, hn, hl, rfl⟩
  · rintro ⟨n, hn, hl, rfl⟩; exact ⟨n, ⟨hn, hl⟩, rfl⟩

/-- C10, as stated, fails: a metadata category named `sample` with the value `s1` and the leaf
`s1` of the tree give two options with the same label `sample → s1`. -/
theorem makeOptions_label_clash :
    makeOptions allValid sampleAndStrain sampleCounts oneLeaf =
      .ok [⟨utf16 "sample → s1", (.str (utf16 "sample"), utf16 "s1")⟩,
           ⟨utf16 "sample → s1", (.strainSymbol, utf16 "s1")⟩] ∧
    ¬ (([⟨utf16 "sample → s1", (.str (utf16 "sample"), utf16 "s1")⟩,
         ⟨utf16 "sample → s1", (.strainSymbol, utf16 "s1")⟩] : List SelectOption).map
        fun o => o.label).Nodup := by
  decide

/-- C10, amended. When no string key of the filters object contains the character `→`
(code unit 8594), no string key is `sample`, and the leaves of the tree have pairwise distinct
names, the labels of the list returned by `makeOptions` are pairwise distinct: options at
different positions have different labels. -/
theorem makeOptions_labels_distinct (isValueValid : JSString → Bool)
    (activeFilters : JSObject (List FilterEntry)) (totalStateCounts : JSObject JSMap)
    (nodes : List TreeNode) (opts : List SelectOption)
    (hres : makeOptions isValueValid activeFilters totalStateCounts nodes = .ok opts)
    (harrow : ∀ s ∈ activeFilters.keys, 8594 ∉ s)
    (hsample : utf16 "sample" ∉ activeFilters.keys)
    (hleaves : ((nodes.filter fun n => n.hasChildren = false).map fun n => n.name).Nodup) :
    (opts.map fun o => o.label).Nodup := by
  rw [makeOptions_ok_eq isValueValid activeFilters totalStateCounts nodes opts hres]
  have hord : ∀ o ∈ activeFilters.keys.flatMap (block isValueValid activeFilters totalStateCounts),
      ∃ c v, c ∈ activeFilters.keys ∧
        o = { label := c ++ arrow ++ v, value := (FilterName.str c, v) } := by
    intro o ho
    obtain ⟨c, hc, hb⟩ := List.mem_flatMap.1 ho
    obtain ⟨v, _, rfl⟩ := (mem_block _ _ _ _ _).1 hb
    exact ⟨c, v, hc, rfl⟩
  have hstr : ∀ o ∈ (if activeFilters.has .strainSymbol then strainOptions nodes else []),
      ∃ n ∈ nodes, n.hasChildren = false ∧
        o = { label := utf16 "sample" ++ arrow ++ n.name,
              value := (FilterName.strainSymbol, n.name) } := by
    intro o ho
    by_cases hs : activeFilters.has .strainSymbol = true
    · rw [if_pos hs] at ho; exact (mem_strainOptions nodes o).1 ho
    · rw [if_neg hs] at ho; simp at ho
  have hnosample : (8594 : Nat) ∉ utf16 "sample" := by decide
  have hmixed : ∀ a ∈ activeFilters.keys.flatMap (block isValueValid activeFilters totalStateCounts),
      ∀ b ∈ (if activeFilters.has .strainSymbol then strainOptions nodes else []),
      a.label ≠ b.label := by
    intro a ha b hb heq
    obtain ⟨c, v, hc, rfl⟩ := hord a ha
    obtain ⟨n, _, _, rfl⟩ := hstr b hb
    have := (arrow_inj c _ _ _ (harrow c hc) hnosample heq).1
    exact hsample (this ▸ hc)
  apply List.Nodup.map_on
  · intro a ha b hb heq
    rcases List.mem_append.1 ha with ha | ha <;> rcases List.mem_append.1 hb with hb | hb
    · obtain ⟨c, v, hc, rfl⟩ := hord a ha
      obtain ⟨c', v', hc', rfl⟩ := hord b hb
      obtain ⟨h1, h2⟩ := arrow_inj c c' v v' (harrow c hc) (harrow c' hc') heq
      rw [h1, h2]
    · exact absurd heq (hmixed a ha b hb)
    · exact absurd heq.symm (hmixed b hb a ha)
    · obtain ⟨n, _, _, rfl⟩ := hstr a ha
      obtain ⟨n', _, _, rfl⟩ := hstr b hb
      have := List.append_cancel_left heq
      simp only at this
      rw [this]
  · apply List.Nodup.append
    · exact (ordinary_values_nodup isValueValid activeFilters totalStateCounts).of_map _
    · by_cases hs : activeFilters.has .strainSymbol = true
      · rw [if_pos hs]
        have hn : (strainOptions nodes).map (fun o => o.value.2) =
            (nodes.filter fun n => n.hasChildren = false).map fun n => n.name := by
          unfold strainOptions
          rw [List.map_map]
          have hf : (nodes.filter fun n => !n.hasChildren) =
              nodes.filter fun n => n.hasChildren = false := by
            apply List.filter_congr
            intro n _
            cases n.hasChildren <;> rfl
          rw [hf]
          rfl
        rw [← hn] at hleaves
        exact hleaves.of_map _
      · rw [if_neg hs]; exact List.nodup_nil
    · intro o ho1 ho2
      obtain ⟨s, _, hcat⟩ := flatMap_block_category _ _ _ _ _ ho1
      rw [strain_part_category _ _ _ ho2] at hcat
      cases hcat

/-! ## The theorems on the demo inputs -/

/-- C1 on the demo inputs: both string keys have a table, and the pairs offered are counted
once. -/
theorem makeOptions_ordinary_exact_witness :
    (∀ s ∈ demoFilters.keys, (demoCounts.get (.str s)).isSome = true) ∧
    ∃ opts, makeOptions demoValid demoFilters demoCounts demoNodes = .ok opts ∧
      (∀ o ∈ opts, ∀ c, o.value.1 = .str c → o.label = c ++ utf16 " → " ++ o.value.2) ∧
      ∀ c v : JSString,
        (Offered demoValid demoFilters demoCounts c v →
          (opts.map fun o => o.value).count (.str c, v) = 1) ∧
        (¬ Offered demoValid demoFilters demoCounts c v →
          (opts.map fun o => o.value).count (.str c, v) = 0) :=
  ⟨by decide, makeOptions_ordinary_exact demoValid demoFilters demoCounts demoNodes (by decide)⟩

/-- C5 on the demo inputs: the block of `country` inside the five returned options. -/
theorem makeOptions_blocks_sorted_witness :
    makeOptions demoValid demoFilters demoCounts demoNodes = .ok demoOptions ∧
    ∃ before blk after, demoOptions = before ++ blk ++ after ∧
      (∀ o ∈ before, o.value.1 ≠ .str (utf16 "country")) ∧
      (∀ o ∈ blk, o.value.1 = .str (utf16 "country")) ∧
      (∀ o ∈ after, o.value.1 ≠ .str (utf16 "country")) ∧
      (blk.map fun o => o.value.2).Sorted (· < ·) :=
  ⟨by decide, makeOptions_blocks_sorted demoValid demoFilters demoCounts demoNodes demoOptions
    (by decide) (utf16 "country")⟩

/-- C6 on the demo inputs: the two leaves close the returned list. -/
theorem makeOptions_strain_witness :
    makeOptions demoValid demoFilters demoCounts demoNodes = .ok demoOptions ∧
    ∃ ordinary, (∀ o ∈ ordinary, ∃ c, o.value.1 = .str c) ∧
      (FilterName.strainSymbol ∈ demoFilters.keyList →
        demoOptions = ordinary ++ (demoNodes.filter fun n => n.hasChildren = false).map fun n =>
          { label := utf16 "sample → " ++ n.name, value := (FilterName.strainSymbol, n.name) }) ∧
      (FilterName.strainSymbol ∉ demoFilters.keyList →
        demoOptions = ordinary ∧ ∀ o ∈ demoOptions, o.value.1 ≠ .strainSymbol) :=
  ⟨by decide, makeOptions_strain demoValid demoFilters demoCounts demoNodes demoOptions
    (by decide)⟩

/-- C7, amended, on the demo inputs: after `country` is cleared, every valid key of its table
is offered, the active `A` included. -/
theorem clearCategory_restores_witness :
    FilterName.str (utf16 "country") ∈ demoFilters.keyList ∧
    demoCounts.get (.str (utf16 "country")) = some demoCountryTable ∧
    (∀ s ∈ demoFilters.keys, (demoCounts.get (.str s)).isSome = true) ∧
    ∃ opts, makeOptions demoValid (clearCategory demoFilters (.str (utf16 "country")))
        demoCounts demoNodes = .ok opts ∧
      ∀ v ∈ demoCountryTable.keys, demoValid v = true →
        { label := utf16 "country" ++ utf16 " → " ++ v,
          value := (FilterName.str (utf16 "country"), v) } ∈ opts :=
  ⟨by decide, rfl, by decide,
    clearCategory_restores demoValid demoFilters demoCounts demoNodes (utf16 "country")
      demoCountryTable (by decide) rfl (by decide)⟩

/-- C10, amended, on the demo inputs: the five labels are pairwise distinct. -/
theorem makeOptions_labels_distinct_witness :
    makeOptions demoValid demoFilters demoCounts demoNodes = .ok demoOptions ∧
    (∀ s ∈ demoFilters.keys, 8594 ∉ s) ∧
    utf16 "sample" ∉ demoFilters.keys ∧
    ((demoNodes.filter fun n => n.hasChildren = false).map fun n => n.name).Nodup ∧
    (demoOptions.map fun o => o.label).Nodup :=
  ⟨by decide, by decide, by decide, by decide,
    makeOptions_labels_distinct demoValid demoFilters demoCounts demoNodes demoOptions
      (by decide) (by decide) (by decide) (by decide)⟩

end FilterData
